import Mathlib

/-!
# A hash-linked ledger: `internal/blockchain/blockchain.go`

Shallow embedding of the Go package `blockchain` and proofs about its
operations `NewChain`, `AddBlock`, `Replace`, `validateBlock`,
`validateChain` and `calculateHash`.

Conventions of the embedding.

* A Go `string` is a Lean `String`, a Go slice `[]Block` is a `List Block`.
* A Go `int` is an `Int`; every addition the source performs is wrapped to 64
  bits two's complement by `int`.
* A Go `error` is an `Option String`: `none` is `nil`, `some msg` is an error
  whose text is `msg`.
* A run-time panic (index out of range) is the outer `none` of an `Option`.
* The clock reading `time.Now()` is an explicit argument `now`.
* The mutex of `Chain` is not modelled: every operation holds it from its first
  to its last statement, so the operations are modelled as atomic steps.
-/

/-! ## The library functions the package calls -/

namespace sha256

/-- Round constants of SHA-256. -/
def K : List Nat := [
    0x428a2f98, 0x71374491, 0xb5c0fbcf, 0xe9b5dba5, 0x3956c25b, 0x59f111f1,
    0x923f82a4, 0xab1c5ed5, 0xd807aa98, 0x12835b01, 0x243185be, 0x550c7dc3,
    0x72be5d74, 0x80deb1fe, 0x9bdc06a7, 0xc19bf174, 0xe49b69c1, 0xefbe4786,
    0x0fc19dc6, 0x240ca1cc, 0x2de92c6f, 0x4a7484aa, 0x5cb0a9dc, 0x76f988da,
    0x983e5152, 0xa831c66d, 0xb00327c8, 0xbf597fc7, 0xc6e00bf3, 0xd5a79147,
    0x06ca6351, 0x14292967, 0x27b70a85, 0x2e1b2138, 0x4d2c6dfc, 0x53380d13,
    0x650a7354, 0x766a0abb, 0x81c2c92e, 0x92722c85, 0xa2bfe8a1, 0xa81a664b,
    0xc24b8b70, 0xc76c51a3, 0xd192e819, 0xd6990624, 0xf40e3585, 0x106aa070,
    0x19a4c116, 0x1e376c08, 0x2748774c, 0x34b0bcb5, 0x391c0cb3, 0x4ed8aa4a,
    0x5b9cca4f, 0x682e6ff3, 0x748f82ee, 0x78a5636f, 0x84c87814, 0x8cc70208,
    0x90befffa, 0xa4506ceb, 0xbef9a3f7, 0xc67178f2]

/-- Initial hash value of SHA-256. -/
def init : List Nat :=
  [0x6a09e667, 0xbb67ae85, 0x3c6ef372, 0xa54ff53a,
   0x510e527f, 0x9b05688c, 0x1f83d9ab, 0x5be0cd19]

/-- Rotation to the right of a 32-bit word. -/
def rotr (x n : Nat) : Nat := ((x >>> n) ||| (x <<< (32 - n))) % 2 ^ 32

/-- Addition of 32-bit words. -/
def add32 (a b : Nat) : Nat := (a + b) % 2 ^ 32

/-- The `n` low bytes of `x`, most significant first. -/
def bigEndian : Nat → Nat → List Nat
  | 0, _ => []
  | n + 1, x => (x / 256 ^ n) % 256 :: bigEndian n x

/-- Message padding: a one bit, zero bits up to 56 mod 64 bytes, and the length
in bits as a 64-bit number. -/
def pad (msg : List Nat) : List Nat :=
  msg ++ 0x80 :: List.replicate ((119 - msg.length % 64) % 64) 0
    ++ bigEndian 8 ((8 * msg.length) % 2 ^ 64)

/-- The number whose big-endian bytes are `bs`. -/
def word (bs : List Nat) : Nat := bs.foldl (fun acc b => acc * 256 + b) 0

/-- The first `n` 32-bit words of a byte string. -/
def words : Nat → List Nat → List Nat
  | 0, _ => []
  | n + 1, bs => word (bs.take 4) :: words n (bs.drop 4)

/-- Message schedule: extends the words `w` by `n` further words. -/
def schedule : Nat → List Nat → List Nat
  | 0, w => w
  | n + 1, w =>
    let i := w.length
    let w15 := w.getD (i - 15) 0
    let w2 := w.getD (i - 2) 0
    let s0 := rotr w15 7 ^^^ rotr w15 18 ^^^ (w15 >>> 3)
    let s1 := rotr w2 17 ^^^ rotr w2 19 ^^^ (w2 >>> 10)
    schedule n (w ++ [add32 (add32 (add32 (w.getD (i - 16) 0) s0) (w.getD (i - 7) 0)) s1])

/-- One round of the compression function, on the working variables `s`, with
round constant `kw.1` and schedule word `kw.2`. -/
def round (s : List Nat) (kw : Nat × Nat) : List Nat :=
  match s with
  | [a, b, c, d, e, f, g, h] =>
    let S1 := rotr e 6 ^^^ rotr e 11 ^^^ rotr e 25
    let ch := (e &&& f) ^^^ ((e ^^^ 0xffffffff) &&& g)
    let t1 := add32 (add32 (add32 (add32 h S1) ch) kw.1) kw.2
    let S0 := rotr a 2 ^^^ rotr a 13 ^^^ rotr a 22
    let maj := (a &&& b) ^^^ (a &&& c) ^^^ (b &&& c)
    let t2 := add32 S0 maj
    [add32 t1 t2, a, b, c, add32 d t1, e, f, g]
  | _ => s

/-- Compression of one 64-byte block `p` into the hash value `h`. -/
def block (h : List Nat) (p : List Nat) : List Nat :=
  List.zipWith add32 h ((K.zip (schedule 48 (words 16 p))).foldl round h)

/-- Compression of the first `n` 64-byte blocks of `bs`. -/
def blocks : Nat → List Nat → List Nat → List Nat
  | 0, h, _ => h
  | n + 1, h, bs => blocks n (block h (bs.take 64)) (bs.drop 64)

/-- The function `sha256.Sum256`: the 32 bytes of the SHA-256 checksum. -/
def Sum256 (data : List Nat) : List Nat :=
  let p := pad data
  (blocks (p.length / 64) init p).flatMap (bigEndian 4)

end sha256

namespace hex

/-- The lower-case hexadecimal digit of `n < 16`. -/
def digit (n : Nat) : Char := "0123456789abcdef".data.getD n '0'

/-- The function `hex.EncodeToString`: two hexadecimal digits per byte. -/
def EncodeToString (src : List Nat) : String :=
  String.mk (src.flatMap fun b => [digit (b / 16), digit (b % 16)])

end hex

namespace fmt

/-- The verb `%d` of `fmt.Sprintf` on an integer. -/
def decimal (x : Int) : String :=
  if x < 0 then "-" ++ toString x.natAbs else toString x.toNat

/-- Decimal digits of `n`, padded with zeros on the left to `width` digits. -/
def zeroPad (width n : Nat) : String :=
  String.mk (List.replicate (width - (toString n).length) '0') ++ toString n

end fmt

namespace time

/-- A `time.Time`: an instant (seconds since the Unix epoch and nanoseconds in
the second) together with the zone offset, in seconds east of UTC, of the
location it is presented in. -/
structure Time where
  sec : Int
  nsec : Nat
  offset : Int
deriving DecidableEq

/-- The zero `time.Time{}`: January 1 of year 1, 00:00:00 UTC. -/
def Time.zero : Time := { sec := -62135596800, nsec := 0, offset := 0 }

/-- The method `Time.UTC`: the same instant, with the location set to UTC. -/
def Time.UTC (t : Time) : Time := { t with offset := 0 }

/-- Year, month and day of the proleptic Gregorian calendar for a number of
days since January 1, 1970. -/
def civil (days : Int) : Int × Int × Int :=
  let z := days + 719468
  let era := z / 146097
  let doe := z - era * 146097
  let yoe := (doe - doe / 1460 + doe / 36524 - doe / 146096) / 365
  let doy := doe - (365 * yoe + yoe / 4 - yoe / 100)
  let mp := (5 * doy + 2) / 153
  let d := doy - (153 * mp + 2) / 5 + 1
  let m := if mp < 10 then mp + 3 else mp - 9
  (yoe + era * 400 + (if m ≤ 2 then 1 else 0), m, d)

/-- The helper `appendInt`: decimal text of `x`, zero-padded to `width`. -/
def appendInt (x : Int) (width : Nat) : String :=
  if x < 0 then "-" ++ fmt.zeroPad width x.natAbs else fmt.zeroPad width x.toNat

/-- The helper `appendNano` for `.999999999`: the fraction of a second without
its trailing zeros, and nothing at all when it is zero. -/
def appendNano (nsec : Nat) : String :=
  if nsec % 1000000000 = 0 then ""
  else "." ++ String.mk
    ((fmt.zeroPad 9 (nsec % 1000000000)).data.reverse.dropWhile (fun c => c = '0')).reverse

/-- The zone of the layout element `Z07:00`. -/
def appendZone (offset : Int) : String :=
  let zone := Int.tdiv offset 60
  if offset = 0 then "Z"
  else (if zone < 0 then "-" else "+")
    ++ fmt.zeroPad 2 (zone.natAbs / 60) ++ ":" ++ fmt.zeroPad 2 (zone.natAbs % 60)

/-- The method `Time.Format` at the layout `time.RFC3339Nano`, which is
`2006-01-02T15:04:05.999999999Z07:00`. -/
def Time.FormatRFC3339Nano (t : Time) : String :=
  let abs := t.sec + t.offset
  let ymd := civil (abs / 86400)
  let s := abs % 86400
  appendInt ymd.1 4 ++ "-" ++ appendInt ymd.2.1 2 ++ "-" ++ appendInt ymd.2.2 2 ++ "T"
    ++ appendInt (s / 3600) 2 ++ ":" ++ appendInt (s % 3600 / 60) 2 ++ ":"
    ++ appendInt (s % 60) 2 ++ appendNano t.nsec ++ appendZone t.offset

end time

namespace blockchain

open time

/-! ## The package `blockchain` -/

/-- Conversion to a Go `int`: the 64-bit two's complement value of `x`. -/
def int (x : Int) : Int := (x + 2 ^ 63) % 2 ^ 64 - 2 ^ 63

/-- A Go `error`: `none` is `nil`, `some msg` an error with text `msg`. -/
abbrev error := Option String

/-- The conversion `[]byte(s)`: the UTF-8 bytes of a string. -/
def bytes (s : String) : List Nat :=
  (s.data.flatMap String.utf8EncodeChar).map UInt8.toNat

/-- Block models a single entry in the chain. -/
structure Block where
  Index : Int
  Timestamp : Time
  Data : String
  PreviousHash : String
  Hash : String
deriving DecidableEq

/-- The zero value `Block{}`. -/
def Block.zero : Block :=
  { Index := 0, Timestamp := Time.zero, Data := "", PreviousHash := "", Hash := "" }

/-- Chain is a slice of blocks (its mutex is not modelled). -/
structure Chain where
  blocks : List Block
deriving DecidableEq

/-- The text `calculateHash` feeds to SHA-256: the `record` variable of the
source, `fmt.Sprintf("%d%s%s%s", ...)`. -/
def hashRecord (block : Block) : String :=
  fmt.decimal block.Index ++ block.Timestamp.UTC.FormatRFC3339Nano ++ block.Data
    ++ block.PreviousHash

/-- The function `calculateHash`. -/
def calculateHash (block : Block) : String :=
  let record := hashRecord block
  let hash := sha256.Sum256 (bytes record)
  hex.EncodeToString hash

/-- The function `generateBlock`, with the clock reading as an argument. -/
def generateBlock (oldBlock : Block) (now : Time) (data : String) : Block :=
  let block : Block :=
    { Index := int (oldBlock.Index + 1)
      Timestamp := now.UTC
      Data := data
      PreviousHash := oldBlock.Hash
      Hash := "" }
  { block with Hash := calculateHash block }

/-- The function `validateBlock`. -/
def validateBlock (newBlock oldBlock : Block) : error :=
  if int (oldBlock.Index + 1) ≠ newBlock.Index then
    some ("invalid index: got " ++ fmt.decimal newBlock.Index ++ " expected "
      ++ fmt.decimal (int (oldBlock.Index + 1)))
  else if oldBlock.Hash ≠ newBlock.PreviousHash then
    some "previous hash mismatch"
  else if calculateHash newBlock ≠ newBlock.Hash then
    some "hash mismatch"
  else
    none

/-- The loop of `validateChain`: `prev` is `blocks[i-1]` and the list holds
`blocks[i]`, `blocks[i+1]`, ... ; the first error ends the loop. -/
def validateChain.loop (prev : Block) : List Block → error
  | [] => none
  | b :: rest =>
    match validateBlock b prev with
    | some err => some err
    | none => validateChain.loop b rest

/-- The function `validateChain`. -/
def validateChain (blocks : List Block) : error :=
  match blocks with
  | [] => some "chain is empty"
  | first :: rest => validateChain.loop first rest

/-- NewChain allocates a blockchain seeded with the genesis block. -/
def NewChain (now : Time) : Chain :=
  let genesis : Block :=
    { Index := 0
      Timestamp := now.UTC
      Data := "Genesis Block"
      PreviousHash := "0"
      Hash := "" }
  let genesis := { genesis with Hash := calculateHash genesis }
  { blocks := [genesis] }

/-- Blocks returns a copy of the block slice. -/
def Chain.Blocks (c : Chain) : List Block := c.blocks

/-- Latest returns the tip of the chain; `none` is the index-out-of-range panic
of `c.blocks[len(c.blocks)-1]` on an empty slice. -/
def Chain.Latest (c : Chain) : Option Block := c.blocks[c.blocks.length - 1]?

/-- AddBlock appends a block that carries the provided payload. The result is
the chain afterwards, the returned block and the returned error; `none` is the
index-out-of-range panic of `c.blocks[len(c.blocks)-1]` on an empty slice. -/
def Chain.AddBlock (c : Chain) (now : Time) (data : String) :
    Option (Chain × Block × error) :=
  match c.blocks[c.blocks.length - 1]? with
  | none => none
  | some tip =>
    let newBlock := generateBlock tip now data
    match validateBlock newBlock tip with
    | some err => some (c, Block.zero, some err)
    | none => some ({ blocks := c.blocks ++ [newBlock] }, newBlock, none)

/-- Replace swaps in a longer valid chain if the provided slice satisfies the
rules. The result is the chain afterwards and the returned boolean. -/
def Chain.Replace (c : Chain) (newBlocks : List Block) : Chain × Bool :=
  if newBlocks.length ≤ c.blocks.length then (c, false)
  else
    match validateChain newBlocks with
    | some _ => (c, false)
    | none => ({ blocks := [] ++ newBlocks }, true)

/-- Two adjacent blocks pass `validateBlock`: `b` is valid after `a`. -/
def Linked (a b : Block) : Prop := validateBlock b a = none

/-! ## Helpers of the test file `blockchain_test.go` -/

/-- The loop of `extendWithData`: one `generateBlock` per payload, each built
from the block before it; every payload comes with its clock reading. -/
def extendWithData.loop (prev : Block) : List (Time × String) → List Block
  | [] => []
  | p :: rest =>
    let next := generateBlock prev p.1 p.2
    next :: extendWithData.loop next rest

/-- The test helper `extendWithData`; `none` is the index-out-of-range panic
of `copySlice[len(copySlice)-1]` on an empty slice. -/
def extendWithData (blocks : List Block) (payloads : List (Time × String)) :
    Option (List Block) :=
  match blocks[blocks.length - 1]? with
  | none => none
  | some prev => some (blocks ++ extendWithData.loop prev payloads)

/-- The assignment `blocks[i].PreviousHash = x` of the tests that tamper with a
candidate (`replacement[1].PreviousHash = "tampered"`). -/
def setPreviousHash : List Block → Nat → String → List Block
  | [], _, _ => []
  | b :: rest, 0, x => { b with PreviousHash := x } :: rest
  | b :: rest, i + 1, x => b :: setPreviousHash rest i x

/-! ## Sequences of calls on one ledger -/

/-- A mutating call on a ledger, with its arguments. -/
inductive Call where
  | AddBlock (now : Time) (data : String)
  | Replace (newBlocks : List Block)

/-- The ledger after one call; `none` when the call panics. -/
def Chain.call (c : Chain) : Call → Option Chain
  | .AddBlock now data => (c.AddBlock now data).map fun r => r.1
  | .Replace newBlocks => some (c.Replace newBlocks).1

/-- The ledger after a sequence of calls; `none` when one of them panics. -/
def Chain.run (c : Chain) : List Call → Option Chain
  | [] => some c
  | call :: rest =>
    match c.call call with
    | none => none
    | some c' => c'.run rest

/-- One `AddBlock` call per payload, each with its clock reading. -/
def addCalls (payloads : List (Time × String)) : List Call :=
  payloads.map fun p => Call.AddBlock p.1 p.2

/-! ## Reading decimal text back -/

/-- The number a list of decimal digits denotes. -/
def decimalValue (cs : List Char) : Nat :=
  cs.foldl (fun acc c => 10 * acc + (c.toNat - 48)) 0

/-- The integer a decimal text with an optional leading minus sign denotes. -/
def parseDecimal (s : String) : Int :=
  if s.data.head? = some '-' then -(decimalValue s.data.tail : Int)
  else (decimalValue s.data : Int)

/-- The UTF-8 bytes of the code point `v`, in arithmetic. -/
def utf8Bytes (v : Nat) : List Nat :=
  if v ≤ 0x7f then [v]
  else if v ≤ 0x7ff then [192 + v / 64 % 32, 128 + v % 64]
  else if v ≤ 0xffff then [224 + v / 4096 % 16, 128 + v / 64 % 64, 128 + v % 64]
  else [240 + v / 262144 % 8, 128 + v / 4096 % 64, 128 + v / 64 % 64, 128 + v % 64]

/-- The timestamp text of a block: what `calculateHash` prints for its
`Timestamp`. -/
def timestampText (block : Block) : String := block.Timestamp.UTC.FormatRFC3339Nano

/-! ## Concrete ledgers used as examples -/

/-- A clock reading: 2023-11-14T22:13:20Z. -/
def t0 : Time := { sec := 1700000000, nsec := 0, offset := 0 }

/-- A clock reading one second and a half after `t0`. -/
def t1 : Time := { sec := 1700000001, nsec := 500000000, offset := 0 }

/-- A clock reading two seconds after `t0`, presented at +01:00. -/
def t2 : Time := { sec := 1700000002, nsec := 0, offset := 3600 }

/-- The genesis block of `NewChain` at `t0`, written out. -/
def genesis0 : Block :=
  { Index := 0
    Timestamp := t0
    Data := "Genesis Block"
    PreviousHash := "0"
    Hash := "66b4df6785655fbbe384f68f62e439dce4d4c44181269fbc956547dcb85274a5" }

/-- The block `generateBlock genesis0 t1 "branch-1"`, written out. -/
def block1 : Block :=
  { Index := 1
    Timestamp := t1
    Data := "branch-1"
    PreviousHash := "66b4df6785655fbbe384f68f62e439dce4d4c44181269fbc956547dcb85274a5"
    Hash := "1ac0e49fe583974b295330036aaed5829e87b6e10693fa4281ee14ea67627fb5" }

/-- The block `generateBlock block1 t2 "branch-2"`, written out. -/
def block2 : Block :=
  { Index := 2
    Timestamp := { sec := 1700000002, nsec := 0, offset := 0 }
    Data := "branch-2"
    PreviousHash := "1ac0e49fe583974b295330036aaed5829e87b6e10693fa4281ee14ea67627fb5"
    Hash := "dc431a69db49368911faa7b3bfa6cab8b1139713bae778a3b5d8bce7c579171b" }

/-- A first record that is not a genesis record: sequence number 5, a previous
digest that is not "0", and a digest that is not the hash of its fields. -/
def forged0 : Block :=
  { Index := 5
    Timestamp := t0
    Data := "forged"
    PreviousHash := "none"
    Hash := "f00d" }

/-- The block `generateBlock forged0 t1 "forged-1"`, written out. -/
def forged1 : Block :=
  { Index := 6
    Timestamp := t1
    Data := "forged-1"
    PreviousHash := "f00d"
    Hash := "fdafb1997f339af370510d6ae63bd19371c819033b3e99ad9d7bf30c271e22c7" }

/-- A first record whose sequence number is two below the largest Go `int`;
as the first record of a candidate it is checked against nothing. -/
def nearMax0 : Block :=
  { Index := 9223372036854775806
    Timestamp := t0
    Data := "near-max"
    PreviousHash := "0"
    Hash := "cafe" }

/-- The block `generateBlock nearMax0 t1 "max"`, written out: its sequence
number is the largest Go `int`, `2^63 - 1`. -/
def maxBlock : Block :=
  { Index := 9223372036854775807
    Timestamp := t1
    Data := "max"
    PreviousHash := "cafe"
    Hash := "ba680ec00c0a110695ac023ae0557c67590782a202513af72bc961cae4c3f3c5" }

/-- The block `generateBlock maxBlock t2 "wrapped"`, written out: its sequence
number is the smallest Go `int`, `-2^63`. -/
def minBlock : Block :=
  { Index := -9223372036854775808
    Timestamp := { sec := 1700000002, nsec := 0, offset := 0 }
    Data := "wrapped"
    PreviousHash := "ba680ec00c0a110695ac023ae0557c67590782a202513af72bc961cae4c3f3c5"
    Hash := "82b7f6ca28eb6774ea47fa4d039b1a0ee3e5303c75ec8f486f2d4a1223a3e237" }

/-! ## Basic facts -/

set_option maxRecDepth 100000 in
theorem Sum256_abc :
    hex.EncodeToString (sha256.Sum256 (bytes "abc"))
      = "ba7816bf8f01cfea414140de5dae2223b00361a396177a9cb410ff61f20015ad" := by
  decide!

set_option maxRecDepth 100000 in
theorem Sum256_empty :
    hex.EncodeToString (sha256.Sum256 (bytes ""))
      = "e3b0c44298fc1c149afbf4c8996fb92427ae41e4649b934ca495991b7852b855" := by
  decide!

set_option maxRecDepth 100000 in
theorem FormatRFC3339Nano_examples :
    Time.FormatRFC3339Nano { sec := 0, nsec := 0, offset := 0 } = "1970-01-01T00:00:00Z"
      ∧ t1.FormatRFC3339Nano = "2023-11-14T22:13:21.5Z"
      ∧ t2.FormatRFC3339Nano = "2023-11-14T23:13:22+01:00"
      ∧ t2.UTC.FormatRFC3339Nano = "2023-11-14T22:13:22Z"
      ∧ Time.zero.FormatRFC3339Nano = "0001-01-01T00:00:00Z" := by
  decide!

set_option maxRecDepth 100000 in
theorem hashRecord_block1 :
    hashRecord block1
      = "12023-11-14T22:13:21.5Zbranch-1"
        ++ "66b4df6785655fbbe384f68f62e439dce4d4c44181269fbc956547dcb85274a5" := by
  decide!

theorem int_int_add (a b : Int) : int (int a + b) = int (a + b) := by
  unfold int
  omega

theorem int_of_range (a : Int) (h₁ : -2 ^ 63 ≤ a) (h₂ : a < 2 ^ 63) : int a = a := by
  unfold int
  omega

theorem int_succ_max (a : Int) (h : a = 2 ^ 63 - 1) : int (a + 1) = -2 ^ 63 := by
  subst h
  unfold int
  omega

theorem calculateHash_congr (a b : Block) (hi : a.Index = b.Index)
    (ht : a.Timestamp.UTC.FormatRFC3339Nano = b.Timestamp.UTC.FormatRFC3339Nano)
    (hd : a.Data = b.Data) (hp : a.PreviousHash = b.PreviousHash) :
    calculateHash a = calculateHash b := by
  simp only [calculateHash, hashRecord, hi, ht, hd, hp]

theorem validateBlock_eq_none_iff (newBlock oldBlock : Block) :
    validateBlock newBlock oldBlock = none ↔
      int (oldBlock.Index + 1) = newBlock.Index ∧ oldBlock.Hash = newBlock.PreviousHash
        ∧ calculateHash newBlock = newBlock.Hash := by
  unfold validateBlock
  split_ifs with h1 h2 h3 <;> simp_all

theorem validateBlock_generateBlock (oldBlock : Block) (now : Time) (data : String) :
    validateBlock (generateBlock oldBlock now data) oldBlock = none := by
  rw [validateBlock_eq_none_iff]
  refine ⟨rfl, rfl, ?_⟩
  exact calculateHash_congr _ _ rfl rfl rfl rfl

theorem loop_eq_none_iff (prev : Block) (l : List Block) :
    validateChain.loop prev l = none ↔ List.Chain Linked prev l := by
  induction l generalizing prev with
  | nil => simp [validateChain.loop]
  | cons b rest ih =>
    rw [validateChain.loop, List.chain_cons, ← ih b]
    unfold Linked
    cases h : validateBlock b prev <;> simp

theorem validateChain_eq_none_iff (l : List Block) :
    validateChain l = none ↔ l ≠ [] ∧ List.Chain' Linked l := by
  cases l with
  | nil => simp [validateChain]
  | cons first rest => simp [validateChain, loop_eq_none_iff, List.Chain']

theorem Latest_eq_getLast? (c : Chain) : c.Latest = c.blocks.getLast? := by
  rw [Chain.Latest, List.getLast?_eq_getElem?]

theorem AddBlock_of_getLast? (c : Chain) (tip : Block) (h : c.blocks.getLast? = some tip)
    (now : Time) (data : String) :
    c.AddBlock now data
      = some ({ blocks := c.blocks ++ [generateBlock tip now data] },
          generateBlock tip now data, none) := by
  rw [List.getLast?_eq_getElem?] at h
  simp only [Chain.AddBlock, h, validateBlock_generateBlock]

theorem exists_getLast?_of_ne_nil (l : List Block) (h : l ≠ []) :
    ∃ tip, l.getLast? = some tip := by
  refine ⟨l.getLast h, ?_⟩
  exact List.getLast?_eq_getLast l h

theorem Replace_eq_of_true (c : Chain) (newBlocks : List Block)
    (h : (c.Replace newBlocks).2 = true) :
    c.Replace newBlocks = ({ blocks := newBlocks }, true) := by
  unfold Chain.Replace at h ⊢
  by_cases hlen : newBlocks.length ≤ c.blocks.length
  · simp [hlen] at h
  · cases hv : validateChain newBlocks with
    | none => simp [hlen]
    | some e => simp [hlen, hv] at h

theorem Replace_true_cond (c : Chain) (newBlocks : List Block)
    (h : (c.Replace newBlocks).2 = true) :
    c.blocks.length < newBlocks.length ∧ validateChain newBlocks = none := by
  unfold Chain.Replace at h
  by_cases hlen : newBlocks.length ≤ c.blocks.length
  · simp [hlen] at h
  · cases hv : validateChain newBlocks with
    | none => exact ⟨by omega, rfl⟩
    | some e => simp [hlen, hv] at h

theorem Replace_of_invalid (c : Chain) (newBlocks : List Block) (e : String)
    (h : validateChain newBlocks = some e) : c.Replace newBlocks = (c, false) := by
  unfold Chain.Replace
  by_cases hlen : newBlocks.length ≤ c.blocks.length
  · simp [hlen]
  · simp [hlen, h]

theorem setPreviousHash_length (l : List Block) (i : Nat) (x : String) :
    (setPreviousHash l i x).length = l.length := by
  induction l generalizing i with
  | nil => rfl
  | cons b rest ih =>
    cases i with
    | zero => rfl
    | succ i => simp [setPreviousHash, ih]

theorem loop_setPreviousHash (prev : Block) (l : List Block) (i : Nat) (x : String)
    (hv : validateChain.loop prev l = none) (hi : i < l.length)
    (hx : x ≠ (l[i]).PreviousHash) :
    validateChain.loop prev (setPreviousHash l i x) = some "previous hash mismatch" := by
  induction l generalizing prev i with
  | nil => simp at hi
  | cons b rest ih =>
    rw [validateChain.loop] at hv
    cases hb : validateBlock b prev with
    | some e => simp [hb] at hv
    | none =>
      simp only [hb] at hv
      cases i with
      | zero =>
        obtain ⟨h1, h2, -⟩ := (validateBlock_eq_none_iff b prev).1 hb
        simp only [List.getElem_cons_zero] at hx
        have hne : ¬ prev.Hash = x := fun h => hx (h.symm.trans h2)
        simp [setPreviousHash, validateChain.loop, validateBlock, h1, hne]
      | succ i =>
        simp only [List.getElem_cons_succ] at hx
        simp only [setPreviousHash, validateChain.loop, hb]
        exact ih b i hv (by simpa using hi) hx

theorem Replace_eq_of_false (c : Chain) (newBlocks : List Block)
    (h : (c.Replace newBlocks).2 = false) :
    c.Replace newBlocks = (c, false) := by
  unfold Chain.Replace at h ⊢
  by_cases hlen : newBlocks.length ≤ c.blocks.length
  · simp [hlen]
  · cases hv : validateChain newBlocks with
    | none => simp [hlen, hv] at h
    | some e => simp [hlen]

/-! ## Adjacent records of a valid sequence -/

theorem linked_getElem (l : List Block) (h : List.Chain' Linked l) (i : Nat)
    (hi : i + 1 < l.length) : Linked (l[i]) (l[i + 1]) := by
  induction l generalizing i with
  | nil => simp at hi
  | cons a rest ih =>
    cases rest with
    | nil => simp at hi
    | cons b rest' =>
      rw [List.chain'_cons] at h
      cases i with
      | zero => exact h.1
      | succ j =>
        simp only [List.getElem_cons_succ]
        exact ih h.2 j (by simpa using hi)

theorem index_of_linked (l : List Block) (h : List.Chain' Linked l)
    (h0 : ∀ first, l.head? = some first → first.Index = 0) (i : Nat) (hi : i < l.length) :
    (l[i]).Index = int i := by
  induction i with
  | zero =>
    cases l with
    | nil => simp at hi
    | cons a rest =>
      simp only [List.getElem_cons_zero]
      rw [h0 a rfl]
      rfl
  | succ j ih =>
    have hl := linked_getElem l h j hi
    obtain ⟨h1, -, -⟩ := (validateBlock_eq_none_iff _ _).1 hl
    rw [← h1, ih (by omega), int_int_add]
    push_cast
    rfl

theorem validateChain_concat (l : List Block) (tip : Block) (now : Time) (data : String)
    (hv : validateChain l = none) (ht : l.getLast? = some tip) :
    validateChain (l ++ [generateBlock tip now data]) = none := by
  rw [validateChain_eq_none_iff] at hv ⊢
  refine ⟨by simp, ?_⟩
  rw [List.chain'_append]
  refine ⟨hv.2, List.chain'_singleton _, ?_⟩
  intro x hx y hy
  rw [ht] at hx
  simp only [List.head?_cons, Option.mem_def, Option.some.injEq] at hx hy
  subst hx hy
  exact validateBlock_generateBlock _ now data

theorem head?_concat_of_ne_nil (l : List Block) (b : Block) (h : l ≠ []) :
    (l ++ [b]).head? = l.head? := by
  cases l with
  | nil => exact absurd rfl h
  | cons a rest => rfl

/-! ## The blocks `extendWithData` appends -/

theorem extendLoop_length (prev : Block) (ps : List (Time × String)) :
    (extendWithData.loop prev ps).length = ps.length := by
  induction ps generalizing prev with
  | nil => rfl
  | cons p rest ih => simp [extendWithData.loop, ih]

theorem extendLoop_Data (prev : Block) (ps : List (Time × String)) (i : Nat)
    (h : i < ps.length) (h' : i < (extendWithData.loop prev ps).length) :
    ((extendWithData.loop prev ps)[i]).Data = (ps[i]).2 := by
  induction ps generalizing prev i with
  | nil => simp at h
  | cons p rest ih =>
    cases i with
    | zero => rfl
    | succ j =>
      simp only [extendWithData.loop, List.getElem_cons_succ]
      exact ih _ j (by simpa using h) _

theorem extendLoop_chain (prev : Block) (ps : List (Time × String)) :
    List.Chain Linked prev (extendWithData.loop prev ps) := by
  induction ps generalizing prev with
  | nil => exact List.Chain.nil
  | cons p rest ih =>
    exact List.Chain.cons (validateBlock_generateBlock prev p.1 p.2) (ih _)

/-! ## Runs -/

theorem run_addCalls (c : Chain) (tip : Block) (h : c.blocks.getLast? = some tip)
    (ps : List (Time × String)) :
    c.run (addCalls ps) = some { blocks := c.blocks ++ extendWithData.loop tip ps } := by
  induction ps generalizing c tip with
  | nil => simp [addCalls, Chain.run, extendWithData.loop]
  | cons p rest ih =>
    have hstep : c.call (Call.AddBlock p.1 p.2)
        = some { blocks := c.blocks ++ [generateBlock tip p.1 p.2] } := by
      simp [Chain.call, AddBlock_of_getLast? c tip h]
    have hrun : c.run (addCalls (p :: rest))
        = Chain.run { blocks := c.blocks ++ [generateBlock tip p.1 p.2] } (addCalls rest) := by
      simp only [addCalls, List.map_cons, Chain.run, hstep]
    rw [hrun, ih _ (generateBlock tip p.1 p.2) (List.getLast?_concat _)]
    simp [extendWithData.loop]

theorem run_preserves (P : Chain → Prop) (Q : Call → Prop)
    (hne : ∀ c, P c → c.blocks ≠ [])
    (hadd : ∀ c tip now data, P c → c.blocks.getLast? = some tip →
      P { blocks := c.blocks ++ [generateBlock tip now data] })
    (hrep : ∀ c newBlocks, P c → Q (Call.Replace newBlocks) →
      c.blocks.length < newBlocks.length → validateChain newBlocks = none →
      P { blocks := newBlocks })
    (calls : List Call) (hQ : ∀ call, call ∈ calls → Q call) (c : Chain) (hc : P c) :
    ∃ c', c.run calls = some c' ∧ P c' := by
  induction calls generalizing c with
  | nil => exact ⟨c, rfl, hc⟩
  | cons call rest ih =>
    have hQ' : ∀ call, call ∈ rest → Q call := fun x hx => hQ x (List.mem_cons_of_mem _ hx)
    cases call with
    | AddBlock now data =>
      obtain ⟨tip, htip⟩ := exists_getLast?_of_ne_nil c.blocks (hne c hc)
      have hstep : c.call (Call.AddBlock now data)
          = some { blocks := c.blocks ++ [generateBlock tip now data] } := by
        simp [Chain.call, AddBlock_of_getLast? c tip htip]
      simp only [Chain.run, hstep]
      exact ih hQ' _ (hadd c tip now data hc htip)
    | Replace newBlocks =>
      simp only [Chain.run, Chain.call]
      cases hb : (c.Replace newBlocks).2 with
      | false =>
        rw [Replace_eq_of_false c newBlocks hb]
        exact ih hQ' c hc
      | true =>
        rw [Replace_eq_of_true c newBlocks hb]
        obtain ⟨hlen, hv⟩ := Replace_true_cond c newBlocks hb
        exact ih hQ' _ (hrep c newBlocks hc (hQ _ (List.mem_cons_self _ _)) hlen hv)

theorem chain'_of_getElem (l : List Block)
    (h : ∀ (i : Nat) (hi : i + 1 < l.length), Linked (l[i]) (l[i + 1])) :
    List.Chain' Linked l := by
  induction l with
  | nil => exact List.chain'_nil
  | cons a rest ih =>
    cases rest with
    | nil => exact List.chain'_singleton a
    | cons b rest' =>
      rw [List.chain'_cons]
      refine ⟨h 0 (by simp), ih ?_⟩
      intro i hi
      exact h (i + 1) (by simpa using hi)

theorem validateChain_eq_none_iff_getElem (s : List Block) (hne : s ≠ []) :
    validateChain s = none ↔
      ∀ (i : Nat) (hi : i + 1 < s.length), validateBlock (s[i + 1]) (s[i]) = none := by
  rw [validateChain_eq_none_iff]
  constructor
  · intro h i hi
    exact linked_getElem s h.2 i hi
  · intro h
    exact ⟨hne, chain'_of_getElem s h⟩

theorem validateChain_extend (s : List Block) (tip : Block) (ps : List (Time × String))
    (hs : validateChain s = none) (ht : s.getLast? = some tip) :
    validateChain (s ++ extendWithData.loop tip ps) = none := by
  rw [validateChain_eq_none_iff] at hs ⊢
  refine ⟨by simp [hs.1], ?_⟩
  have hch : List.Chain' Linked (tip :: extendWithData.loop tip ps) := extendLoop_chain tip ps
  rw [List.chain'_cons'] at hch
  rw [List.chain'_append]
  refine ⟨hs.2, hch.2, ?_⟩
  intro x hx y hy
  rw [ht] at hx
  simp only [Option.mem_def, Option.some.injEq] at hx
  subst hx
  exact hch.1 y hy

theorem extendLoop_getLast (prev : Block) (ps : List (Time × String)) (hk : ps ≠ []) :
    ∃ tip, (extendWithData.loop prev ps).getLast? = some tip ∧ tip.Data = (ps.getLast hk).2 := by
  induction ps generalizing prev with
  | nil => exact absurd rfl hk
  | cons p rest ih =>
    cases rest with
    | nil => exact ⟨_, rfl, rfl⟩
    | cons q rest' =>
      obtain ⟨tip, h1, h2⟩ := ih (generateBlock prev p.1 p.2) (by simp)
      refine ⟨tip, ?_, ?_⟩
      · simp only [extendWithData.loop] at h1 ⊢
        rw [List.getLast?_cons_cons]
        exact h1
      · rw [h2]
        simp

theorem extendWithData_of_getLast? (s : List Block) (tip : Block) (ps : List (Time × String))
    (ht : s.getLast? = some tip) :
    extendWithData s ps = some (s ++ extendWithData.loop tip ps) := by
  rw [List.getLast?_eq_getElem?] at ht
  simp only [extendWithData, ht]

theorem validateBlock_congr_old (b p p' : Block) (hi : p'.Index = p.Index)
    (hh : p'.Hash = p.Hash) : validateBlock b p' = validateBlock b p := by
  unfold validateBlock
  rw [hi, hh]

theorem loop_first_error (prev : Block) (l : List Block) (e : String)
    (h : validateChain.loop prev l = some e) :
    ∃ (i : Nat) (hi : i + 1 < (prev :: l).length),
      validateBlock ((prev :: l)[i + 1]) ((prev :: l)[i]) = some e
        ∧ ∀ (j : Nat) (hj : j < i),
            validateBlock ((prev :: l)[j + 1]) ((prev :: l)[j]) = none := by
  induction l generalizing prev with
  | nil => simp [validateChain.loop] at h
  | cons b rest ih =>
    rw [validateChain.loop] at h
    cases hb : validateBlock b prev with
    | some err =>
      simp only [hb, Option.some.injEq] at h
      subst h
      exact ⟨0, by simp, hb, fun j hj => absurd hj (Nat.not_lt_zero j)⟩
    | none =>
      simp only [hb] at h
      obtain ⟨i, hi, he, hprev⟩ := ih b h
      refine ⟨i + 1, by simpa using hi, ?_, ?_⟩
      · simpa only [List.getElem_cons_succ] using he
      · intro j hj
        cases j with
        | zero => exact hb
        | succ j' =>
          have := hprev j' (by omega)
          simpa only [List.getElem_cons_succ] using this

/-! ## The text that is hashed -/

theorem digitChar_toNat (k : Nat) (h : k < 10) : (Nat.digitChar k).toNat - 48 = k := by
  interval_cases k <;> rfl

theorem digitChar_ne_minus (k : Nat) (h : k < 10) : Nat.digitChar k ≠ '-' := by
  interval_cases k <;> decide

theorem toDigitsCore_append (fuel n : Nat) (ds : List Char) :
    Nat.toDigitsCore 10 fuel n ds = Nat.toDigitsCore 10 fuel n [] ++ ds := by
  induction fuel generalizing n ds with
  | zero => rfl
  | succ f ih =>
    simp only [Nat.toDigitsCore]
    split_ifs
    · rfl
    · rw [ih (n / 10) (Nat.digitChar (n % 10) :: ds), ih (n / 10) [Nat.digitChar (n % 10)]]
      simp

theorem decimalValue_concat (cs : List Char) (d : Char) :
    decimalValue (cs ++ [d]) = 10 * decimalValue cs + (d.toNat - 48) := by
  simp [decimalValue, List.foldl_append]

theorem decimalValue_toDigitsCore (fuel n : Nat) (h : n < fuel) :
    decimalValue (Nat.toDigitsCore 10 fuel n []) = n := by
  induction fuel generalizing n with
  | zero => omega
  | succ f ih =>
    simp only [Nat.toDigitsCore]
    split_ifs with h0
    · have := digitChar_toNat (n % 10) (Nat.mod_lt _ (by decide))
      simp only [decimalValue, List.foldl_cons, List.foldl_nil, this]
      omega
    · rw [toDigitsCore_append, decimalValue_concat, ih (n / 10) (by omega),
        digitChar_toNat (n % 10) (Nat.mod_lt _ (by decide))]
      omega

theorem toDigitsCore_no_minus (fuel n : Nat) (ds : List Char) (hds : '-' ∉ ds) :
    '-' ∉ Nat.toDigitsCore 10 fuel n ds := by
  induction fuel generalizing n ds with
  | zero => exact hds
  | succ f ih =>
    have hcons : '-' ∉ Nat.digitChar (n % 10) :: ds := by
      intro hmem
      rcases List.mem_cons.1 hmem with h | h
      · exact digitChar_ne_minus (n % 10) (Nat.mod_lt _ (by decide)) h.symm
      · exact hds h
    simp only [Nat.toDigitsCore]
    split_ifs
    · exact hcons
    · exact ih _ _ hcons

theorem toString_nat_data (n : Nat) : (toString n).data = Nat.toDigits 10 n := rfl

theorem parseDecimal_nat (n : Nat) : parseDecimal (toString n) = n := by
  have hhead : (Nat.toDigits 10 n).head? ≠ some '-' := by
    intro h
    exact toDigitsCore_no_minus (n + 1) n [] (by simp) (List.mem_of_mem_head? h)
  simp only [parseDecimal, toString_nat_data, hhead, if_false]
  exact congrArg Nat.cast (decimalValue_toDigitsCore (n + 1) n (by omega))

theorem parseDecimal_decimal (x : Int) : parseDecimal (fmt.decimal x) = x := by
  unfold fmt.decimal
  split_ifs with h
  · have hd : ("-" ++ toString x.natAbs).data = '-' :: Nat.toDigits 10 x.natAbs := rfl
    simp only [parseDecimal, hd, List.head?_cons, if_true, List.tail_cons]
    have hv : decimalValue (Nat.toDigits 10 x.natAbs) = x.natAbs :=
      decimalValue_toDigitsCore (x.natAbs + 1) x.natAbs (by omega)
    rw [hv]
    omega
  · rw [parseDecimal_nat]
    omega

theorem decimal_injective (x y : Int) (h : fmt.decimal x = fmt.decimal y) : x = y := by
  rw [← parseDecimal_decimal x, ← parseDecimal_decimal y, h]

theorem string_append_left_cancel (a x y : String) (h : a ++ x = a ++ y) : x = y := by
  rw [String.ext_iff] at h ⊢
  simpa using h

theorem string_append_right_cancel (x y a : String) (h : x ++ a = y ++ a) : x = y := by
  rw [String.ext_iff] at h ⊢
  simpa using h

theorem hashRecord_eq (block : Block) :
    hashRecord block
      = fmt.decimal block.Index ++ timestampText block ++ block.Data ++ block.PreviousHash :=
  rfl

theorem shr6_toNat (v : UInt32) : (v >>> 6).toNat = v.toNat / 64 := by
  show (v.toBitVec >>> (UInt32.mod 6 32).toBitVec).toNat = _
  rw [BitVec.ushiftRight_eq', BitVec.toNat_ushiftRight, Nat.shiftRight_eq_div_pow]
  rfl

theorem shr12_toNat (v : UInt32) : (v >>> 12).toNat = v.toNat / 4096 := by
  show (v.toBitVec >>> (UInt32.mod 12 32).toBitVec).toNat = _
  rw [BitVec.ushiftRight_eq', BitVec.toNat_ushiftRight, Nat.shiftRight_eq_div_pow]
  rfl

theorem shr18_toNat (v : UInt32) : (v >>> 18).toNat = v.toNat / 262144 := by
  show (v.toBitVec >>> (UInt32.mod 18 32).toBitVec).toNat = _
  rw [BitVec.ushiftRight_eq', BitVec.toNat_ushiftRight, Nat.shiftRight_eq_div_pow]
  rfl

theorem uint8_ofNat_toNat (x : UInt8) : UInt8.ofNat x.toNat = x :=
  UInt8.toNat.inj (UInt8.toNat_ofNat_of_lt x.toNat_lt)

theorem mask_c0 : ∀ n, n < 256 → ((UInt8.ofNat n) &&& 0x1f ||| 0xc0).toNat = 192 + n % 32 := by
  decide!

theorem mask_80 : ∀ n, n < 256 → ((UInt8.ofNat n) &&& 0x3f ||| 0x80).toNat = 128 + n % 64 := by
  decide!

theorem mask_e0 : ∀ n, n < 256 → ((UInt8.ofNat n) &&& 0x0f ||| 0xe0).toNat = 224 + n % 16 := by
  decide!

theorem mask_f0 : ∀ n, n < 256 → ((UInt8.ofNat n) &&& 0x07 ||| 0xf0).toNat = 240 + n % 8 := by
  decide!

theorem lead_c0 (x : UInt8) : (x &&& 0x1f ||| 0xc0).toNat = 192 + x.toNat % 32 := by
  have h := mask_c0 x.toNat x.toNat_lt
  rwa [uint8_ofNat_toNat] at h

theorem cont_80 (x : UInt8) : (x &&& 0x3f ||| 0x80).toNat = 128 + x.toNat % 64 := by
  have h := mask_80 x.toNat x.toNat_lt
  rwa [uint8_ofNat_toNat] at h

theorem lead_e0 (x : UInt8) : (x &&& 0x0f ||| 0xe0).toNat = 224 + x.toNat % 16 := by
  have h := mask_e0 x.toNat x.toNat_lt
  rwa [uint8_ofNat_toNat] at h

theorem lead_f0 (x : UInt8) : (x &&& 0x07 ||| 0xf0).toNat = 240 + x.toNat % 8 := by
  have h := mask_f0 x.toNat x.toNat_lt
  rwa [uint8_ofNat_toNat] at h

theorem uint32_le_iff (v w : UInt32) : v ≤ w ↔ v.toNat ≤ w.toNat := by
  rw [UInt32.le_def, BitVec.le_def]
  rfl

theorem utf8EncodeChar_toNat (c : Char) :
    (String.utf8EncodeChar c).map UInt8.toNat = utf8Bytes c.val.toNat := by
  unfold String.utf8EncodeChar utf8Bytes
  simp only [uint32_le_iff]
  have e1 : (0x7f : UInt32).toNat = 0x7f := rfl
  have e2 : (0x7ff : UInt32).toNat = 0x7ff := rfl
  have e3 : (0xffff : UInt32).toNat = 0xffff := rfl
  rw [e1, e2, e3]
  have hlt : c.val.toNat < 4294967296 := c.val.toNat_lt
  split_ifs with h1 h2 h3
  · simp only [List.map_cons, List.map_nil, UInt32.toUInt8_toNat]
    congr 1
    omega
  · simp only [List.map_cons, List.map_nil, lead_c0, cont_80, UInt32.toUInt8_toNat, shr6_toNat]
    congr 1
    · omega
    · congr 1
      omega
  · simp only [List.map_cons, List.map_nil, lead_e0, cont_80, UInt32.toUInt8_toNat, shr6_toNat,
      shr12_toNat]
    congr 1
    · omega
    · congr 1
      · omega
      · congr 1
        omega
  · simp only [List.map_cons, List.map_nil, lead_f0, cont_80, UInt32.toUInt8_toNat, shr6_toNat,
      shr12_toNat, shr18_toNat]
    congr 1
    · omega
    · congr 1
      · omega
      · congr 1
        · omega
        · congr 1
          omega

theorem utf8Bytes_ne_nil (v : Nat) : utf8Bytes v ≠ [] := by
  unfold utf8Bytes
  split_ifs <;> simp

theorem utf8Bytes_append_inj (v w : Nat) (X Y : List Nat) (hv : v < 2097152)
    (hw : w < 2097152) (h : utf8Bytes v ++ X = utf8Bytes w ++ Y) : v = w ∧ X = Y := by
  unfold utf8Bytes at h
  split_ifs at h <;>
    simp only [List.cons_append, List.nil_append, List.cons.injEq] at h <;>
    first
    | (exfalso; omega)
    | exact ⟨by omega, by simp only [h]⟩

theorem char_toNat_lt (c : Char) : c.val.toNat < 2097152 := by
  have h := c.valid
  rcases h with h | h
  · have : c.val.toNat < 0xd800 := h
    omega
  · have : c.val.toNat < 0x110000 := h.2
    omega

theorem bytes_eq (s : String) : bytes s = s.data.flatMap fun c => utf8Bytes c.val.toNat := by
  unfold bytes
  rw [List.map_flatMap]
  simp only [utf8EncodeChar_toNat]

theorem flatMap_utf8Bytes_injective (l₁ l₂ : List Char)
    (h : (l₁.flatMap fun c => utf8Bytes c.val.toNat) = l₂.flatMap fun c => utf8Bytes c.val.toNat) :
    l₁ = l₂ := by
  induction l₁ generalizing l₂ with
  | nil =>
    cases l₂ with
    | nil => rfl
    | cons d ds =>
      simp only [List.flatMap_nil, List.flatMap_cons] at h
      have := utf8Bytes_ne_nil d.val.toNat
      cases hd : utf8Bytes d.val.toNat with
      | nil => exact absurd hd this
      | cons x xs => rw [hd] at h; simp at h
  | cons c cs ih =>
    cases l₂ with
    | nil =>
      simp only [List.flatMap_nil, List.flatMap_cons] at h
      have := utf8Bytes_ne_nil c.val.toNat
      cases hc : utf8Bytes c.val.toNat with
      | nil => exact absurd hc this
      | cons x xs => rw [hc] at h; simp at h
    | cons d ds =>
      simp only [List.flatMap_cons] at h
      obtain ⟨h1, h2⟩ := utf8Bytes_append_inj _ _ _ _ (char_toNat_lt c) (char_toNat_lt d) h
      have hcd : c = d := Char.ext (UInt32.toNat.inj h1)
      rw [hcd, ih ds h2]

theorem bytes_injective (s t : String) (h : bytes s = bytes t) : s = t := by
  rw [bytes_eq, bytes_eq] at h
  exact String.ext (flatMap_utf8Bytes_injective _ _ h)

theorem digit_injective :
    ∀ i, i < 16 → ∀ j, j < 16 → hex.digit i = hex.digit j → i = j := by
  decide

theorem EncodeToString_injective (l₁ l₂ : List Nat) (h₁ : ∀ b, b ∈ l₁ → b < 256)
    (h₂ : ∀ b, b ∈ l₂ → b < 256) (h : hex.EncodeToString l₁ = hex.EncodeToString l₂) :
    l₁ = l₂ := by
  unfold hex.EncodeToString at h
  replace h := congrArg String.data h
  simp only at h
  induction l₁ generalizing l₂ with
  | nil =>
    cases l₂ with
    | nil => rfl
    | cons b bs => simp at h
  | cons a as ih =>
    cases l₂ with
    | nil => simp at h
    | cons b bs =>
      simp only [List.flatMap_cons, List.cons_append, List.nil_append, List.cons.injEq] at h
      obtain ⟨hd1, hd2, hrest⟩ := h
      have ha := h₁ a (List.mem_cons_self _ _)
      have hb := h₂ b (List.mem_cons_self _ _)
      have e1 := digit_injective (a / 16) (by omega) (b / 16) (by omega) hd1
      have e2 := digit_injective (a % 16) (by omega) (b % 16) (by omega) hd2
      have hab : a = b := by omega
      rw [hab, ih bs (fun x hx => h₁ x (List.mem_cons_of_mem _ hx))
        (fun x hx => h₂ x (List.mem_cons_of_mem _ hx)) hrest]

theorem bigEndian_lt (n x : Nat) : ∀ b, b ∈ sha256.bigEndian n x → b < 256 := by
  induction n with
  | zero => simp [sha256.bigEndian]
  | succ n ih =>
    intro b hb
    simp only [sha256.bigEndian, List.mem_cons] at hb
    rcases hb with hb | hb
    · rw [hb]
      exact Nat.mod_lt _ (by decide)
    · exact ih b hb

theorem Sum256_lt (data : List Nat) : ∀ b, b ∈ sha256.Sum256 data → b < 256 := by
  intro b hb
  simp only [sha256.Sum256, List.mem_flatMap] at hb
  obtain ⟨w, -, hw⟩ := hb
  exact bigEndian_lt 4 w b hw

theorem Sum256_eq_of_calculateHash_eq (a b : Block) (h : calculateHash a = calculateHash b) :
    sha256.Sum256 (bytes (hashRecord a)) = sha256.Sum256 (bytes (hashRecord b)) :=
  EncodeToString_injective _ _ (Sum256_lt _) (Sum256_lt _) h

/-! ## The claims -/

set_option maxRecDepth 100000

/-- C1. Replace returns true if and only if the candidate is strictly longer
than the ledger's current sequence and `validateChain` returns no error on it;
in particular a candidate that is not longer is rejected, valid or not. -/
theorem Replace_true_iff (c : Chain) (newBlocks : List Block) :
    ((c.Replace newBlocks).2 = true ↔
        c.blocks.length < newBlocks.length ∧ validateChain newBlocks = none)
      ∧ (newBlocks.length ≤ c.blocks.length → (c.Replace newBlocks).2 = false) := by
  unfold Chain.Replace
  split_ifs with hlen
  · simp [hlen]
  · cases hv : validateChain newBlocks with
    | none => simp [hlen]; omega
    | some e => simp [hlen]

/-- C2. When Replace returns true, the ledger's sequence afterwards is exactly
the candidate: the snapshot has the candidate's length and the tip is the
candidate's last record. -/
theorem Replace_true_adopts (c : Chain) (newBlocks : List Block)
    (h : (c.Replace newBlocks).2 = true) :
    (c.Replace newBlocks).1.blocks = newBlocks
      ∧ (c.Replace newBlocks).1.Blocks = newBlocks
      ∧ (c.Replace newBlocks).1.Blocks.length = newBlocks.length
      ∧ ∃ tip, newBlocks.getLast? = some tip ∧ (c.Replace newBlocks).1.Latest = some tip := by
  have hlen : c.blocks.length < newBlocks.length := (Replace_true_cond c newBlocks h).1
  have hne : newBlocks ≠ [] := by
    intro h0
    simp [h0] at hlen
  obtain ⟨tip, htip⟩ := exists_getLast?_of_ne_nil newBlocks hne
  rw [Replace_eq_of_true c newBlocks h]
  refine ⟨rfl, rfl, rfl, tip, htip, ?_⟩
  rw [Latest_eq_getLast?]
  exact htip

theorem Replace_true_adopts_witness :
    ((NewChain t0).Replace [genesis0, block1, block2]).2 = true
      ∧ ((NewChain t0).Replace [genesis0, block1, block2]).1.Blocks.length = 3
      ∧ ∃ tip, [genesis0, block1, block2].getLast? = some tip
          ∧ ((NewChain t0).Replace [genesis0, block1, block2]).1.Latest = some tip :=
  ⟨by decide!,
   (Replace_true_adopts (NewChain t0) [genesis0, block1, block2] (by decide!)).2.2⟩

/-- C3. Rejected operations are atomic: when Replace returns false the ledger
is the one before the call, and when AddBlock returns an error the ledger is
the one before the call, every field of every record included. -/
theorem rejected_unchanged (c : Chain) :
    (∀ newBlocks : List Block,
        (c.Replace newBlocks).2 = false → (c.Replace newBlocks).1 = c)
      ∧ (∀ (now : Time) (data : String) (c' : Chain) (b : Block) (err : String),
          c.AddBlock now data = some (c', b, some err) → c' = c) := by
  constructor
  · intro newBlocks h
    rw [Replace_eq_of_false c newBlocks h]
  · intro now data c' b err h
    unfold Chain.AddBlock at h
    cases hl : c.blocks[c.blocks.length - 1]? with
    | none => simp [hl] at h
    | some tip =>
      cases hv : validateBlock (generateBlock tip now data) tip with
      | none => simp [hl, hv] at h
      | some e =>
        simp only [hl, hv, Option.some.injEq, Prod.mk.injEq] at h
        exact h.1.symm

theorem rejected_unchanged_witness :
    ((NewChain t0).Replace (setPreviousHash [genesis0, block1] 1 "tampered")).2 = false
      ∧ ((NewChain t0).Replace (setPreviousHash [genesis0, block1] 1 "tampered")).1
          = NewChain t0 :=
  ⟨by decide!, (rejected_unchanged (NewChain t0)).1 _ (by decide!)⟩

/-- C4, as amended. Tampered linkage is rejected at every position but the
first: for a candidate that is strictly longer than the ledger and passes
`validateChain`, every position `i` with `1 ≤ i` and every string `x` different
from record `i`'s `PreviousHash`, the candidate with `blocks[i].PreviousHash`
set to `x` fails `validateChain` with "previous hash mismatch", and Replace
returns false and leaves the ledger as it was. -/
theorem Replace_tampered_rejected (c : Chain) (newBlocks : List Block) (i : Nat) (x : String)
    (hlen : c.blocks.length < newBlocks.length) (hv : validateChain newBlocks = none)
    (hi : 1 ≤ i) (hlt : i < newBlocks.length) (hx : x ≠ (newBlocks[i]).PreviousHash) :
    validateChain (setPreviousHash newBlocks i x) = some "previous hash mismatch"
      ∧ c.Replace (setPreviousHash newBlocks i x) = (c, false) := by
  have _ := hlen
  have key : validateChain (setPreviousHash newBlocks i x) = some "previous hash mismatch" := by
    cases newBlocks with
    | nil => simp at hlt
    | cons first rest =>
      cases i with
      | zero => omega
      | succ j =>
        simp only [List.getElem_cons_succ] at hx
        simp only [setPreviousHash, validateChain]
        exact loop_setPreviousHash first rest j x hv (by simpa using hlt) hx
  exact ⟨key, Replace_of_invalid c _ _ key⟩

theorem Replace_tampered_rejected_witness :
    validateChain (setPreviousHash [genesis0, block1, block2] 2 "forged")
        = some "previous hash mismatch"
      ∧ (NewChain t0).Replace (setPreviousHash [genesis0, block1, block2] 2 "forged")
        = (NewChain t0, false) :=
  Replace_tampered_rejected (NewChain t0) [genesis0, block1, block2] 2 "forged"
    (by decide!) (by decide!) (by decide) (by decide) (by decide)

/-- C4, as stated, fails at the first position. The candidate
`[genesis0, block1]` is longer than the ledger `NewChain t0` and passes
`validateChain`; with `blocks[0].PreviousHash` set to "tampered", which is not
its value "0", Replace returns true and the ledger holds the tampered
candidate. -/
theorem Replace_tampered_first_adopted :
    (NewChain t0).blocks.length < [genesis0, block1].length
      ∧ validateChain [genesis0, block1] = none
      ∧ "tampered" ≠ ([genesis0, block1][0]).PreviousHash
      ∧ (NewChain t0).Replace (setPreviousHash [genesis0, block1] 0 "tampered")
          = ({ blocks := [{ genesis0 with PreviousHash := "tampered" }, block1] }, true)
      ∧ (NewChain t0).Replace (setPreviousHash [genesis0, block1] 0 "tampered")
          ≠ (NewChain t0, false) := by
  decide!

/-- C5. On a ledger whose sequence is non-empty AddBlock returns no error,
whatever the payload and the clock reading: the block `generateBlock` builds
from the tip passes `validateBlock` against that tip. -/
theorem AddBlock_no_error (c : Chain) (now : Time) (data : String) (h : c.blocks ≠ []) :
    (∃ c' b, c.AddBlock now data = some (c', b, none))
      ∧ ∀ tip, c.Latest = some tip →
          validateBlock (generateBlock tip now data) tip = none := by
  obtain ⟨tip, htip⟩ := exists_getLast?_of_ne_nil c.blocks h
  exact ⟨⟨_, _, AddBlock_of_getLast? c tip htip now data⟩,
    fun tip _ => validateBlock_generateBlock tip now data⟩

theorem AddBlock_no_error_witness :
    (NewChain t0).blocks ≠ []
      ∧ ∃ c' b, (NewChain t0).AddBlock t1 "hello" = some (c', b, none) :=
  ⟨by decide!, (AddBlock_no_error (NewChain t0) t1 "hello" (by decide!)).1⟩

/-- C6, as amended. A successful `AddBlock(d)` on a ledger with tip `t` returns
a block `b` whose `Index` is `t.Index + 1` in the 64-bit wrapping arithmetic of
a Go `int`: the integer successor whenever that fits 64 bits, and `-2^63` when
`t.Index` is `2^63 - 1`. Further `b.Timestamp` is the clock reading in UTC,
`b.Data = d`, `b.PreviousHash = t.Hash` and `b.Hash = calculateHash b`; the
ledger afterwards is the previous sequence with `b` appended: one record
longer, the earlier records unchanged, `b` last. -/
theorem AddBlock_appends (c c' : Chain) (tip b : Block) (now : Time) (data : String)
    (ht : c.Latest = some tip) (h : c.AddBlock now data = some (c', b, none)) :
    b.Index = int (tip.Index + 1)
      ∧ (-2 ^ 63 ≤ tip.Index + 1 → tip.Index + 1 < 2 ^ 63 → b.Index = tip.Index + 1)
      ∧ (tip.Index = 2 ^ 63 - 1 → b.Index = -2 ^ 63)
      ∧ b.Timestamp = now.UTC
      ∧ b.Data = data
      ∧ b.PreviousHash = tip.Hash
      ∧ b.Hash = calculateHash b
      ∧ c'.Blocks = c.Blocks ++ [b]
      ∧ c'.Blocks.length = c.Blocks.length + 1
      ∧ (∀ i, i < c.Blocks.length → c'.Blocks[i]? = c.Blocks[i]?)
      ∧ c'.Latest = some b := by
  rw [Latest_eq_getLast?] at ht
  rw [AddBlock_of_getLast? c tip ht now data] at h
  simp only [Option.some.injEq, Prod.mk.injEq, and_true] at h
  obtain ⟨hc, hb⟩ := h
  subst hc hb
  refine ⟨rfl, fun h1 h2 => int_of_range _ h1 h2, fun h1 => int_succ_max _ h1,
    rfl, rfl, rfl, ?_, rfl, ?_, ?_, ?_⟩
  · exact (calculateHash_congr _ _ rfl rfl rfl rfl).symm
  · simp [Chain.Blocks]
  · intro i hi
    simp only [Chain.Blocks] at hi ⊢
    exact List.getElem?_append_left hi
  · rw [Latest_eq_getLast?]
    exact List.getLast?_concat _

theorem AddBlock_appends_witness :
    (NewChain t0).Latest = some genesis0
      ∧ (NewChain t0).AddBlock t1 "branch-1"
          = some ({ blocks := [genesis0, block1] }, block1, none)
      ∧ block1.Index = int (genesis0.Index + 1)
      ∧ block1.PreviousHash = genesis0.Hash :=
  have h := AddBlock_appends (NewChain t0) { blocks := [genesis0, block1] } genesis0 block1
    t1 "branch-1" (by decide!) (by decide!)
  ⟨by decide!, by decide!, h.1, h.2.2.2.2.2.1⟩

/-- C6, as stated, fails at the largest `int`. The candidate
`[nearMax0, maxBlock]` is adopted by the ledger `NewChain t0`, so the tip has
sequence number `2^63 - 1`; `AddBlock` then succeeds and returns a block with
sequence number `-2^63`, which is not the tip's sequence number plus one. -/
theorem AddBlock_wraps :
    (NewChain t0).run [Call.Replace [nearMax0, maxBlock]]
        = some { blocks := [nearMax0, maxBlock] }
      ∧ (Chain.mk [nearMax0, maxBlock]).Latest = some maxBlock
      ∧ (Chain.mk [nearMax0, maxBlock]).AddBlock t2 "wrapped"
          = some ({ blocks := [nearMax0, maxBlock, minBlock] }, minBlock, none)
      ∧ maxBlock.Index = 2 ^ 63 - 1
      ∧ minBlock.Index = -2 ^ 63
      ∧ minBlock.Index ≠ maxBlock.Index + 1 := by
  decide!

/-- C7. Append monotonicity: `NewChain` followed by one `AddBlock` per payload
gives a ledger whose snapshot has `1 + (number of payloads)` records, in which
record `i` has sequence number `i` (for every position a Go `int` can hold),
record `i + 1` carries the `i`-th payload, and the `PreviousHash` of record
`i + 1` is the `Hash` of record `i`. -/
theorem append_monotonic (now : Time) (ps : List (Time × String)) :
    ∃ c, (NewChain now).run (addCalls ps) = some c
      ∧ c.Blocks.length = 1 + ps.length
      ∧ (∀ (i : Nat) (h : i < c.Blocks.length), i < 2 ^ 63 → (c.Blocks[i]).Index = i)
      ∧ (∀ (i : Nat) (h : i < ps.length) (h' : i + 1 < c.Blocks.length),
          (c.Blocks[i + 1]).Data = (ps[i]).2)
      ∧ (∀ (i : Nat) (h : i + 1 < c.Blocks.length),
          (c.Blocks[i + 1]).PreviousHash = (c.Blocks[i]).Hash) := by
  obtain ⟨g, hg⟩ : ∃ g, (NewChain now).blocks = [g] := ⟨_, rfl⟩
  have hg0 : g.Index = 0 := by
    have h := congrArg (fun l => l.head?.map Block.Index) hg
    simpa [NewChain] using h.symm
  have hrun := run_addCalls (NewChain now) g (by rw [hg]; rfl) ps
  rw [hg] at hrun
  refine ⟨_, hrun, ?_, ?_, ?_, ?_⟩
  · simp [Chain.Blocks, extendLoop_length]
    omega
  · intro i h hi
    have hch : List.Chain' Linked (g :: extendWithData.loop g ps) := extendLoop_chain g ps
    have hidx := index_of_linked (g :: extendWithData.loop g ps) hch
      (by intro first hf; simp at hf; rw [← hf]; exact hg0) i (by simpa [Chain.Blocks] using h)
    simp only [Chain.Blocks, List.singleton_append] at h ⊢
    rw [hidx]
    exact int_of_range _ (by omega) (by omega)
  · intro i h h'
    simp only [Chain.Blocks, List.singleton_append, List.getElem_cons_succ]
    exact extendLoop_Data g ps i h _
  · intro i h
    have hch : List.Chain' Linked (g :: extendWithData.loop g ps) := extendLoop_chain g ps
    have hl := linked_getElem _ hch i (by simpa [Chain.Blocks] using h)
    exact ((validateBlock_eq_none_iff _ _).1 hl).2.1.symm

theorem append_monotonic_witness :
    ∃ c, (NewChain t0).run (addCalls [(t1, "branch-1"), (t2, "branch-2")]) = some c
      ∧ c.Blocks.length = 1 + 2 :=
  (append_monotonic t0 [(t1, "branch-1"), (t2, "branch-2")]).imp fun _ h => ⟨h.1, h.2.1⟩

/-- C8. Genesis invariant: whatever the clock reading, the ledger `NewChain`
returns holds exactly one record, with sequence number 0, payload
"Genesis Block", previous digest "0", and a digest equal to `calculateHash` of
that record. -/
theorem NewChain_genesis (now : Time) :
    ∃ g, (NewChain now).Blocks = [g]
      ∧ g.Index = 0
      ∧ g.Data = "Genesis Block"
      ∧ g.PreviousHash = "0"
      ∧ g.Hash = calculateHash g
      ∧ g.Timestamp = now.UTC :=
  ⟨_, rfl, rfl, rfl, rfl, (calculateHash_congr _ _ rfl rfl rfl rfl).symm, rfl⟩

/-- C9. The ledger's sequence is never empty: every sequence of AddBlock and
Replace calls on the ledger of `NewChain` runs without a panic and ends in a
ledger that holds at least one record, on which `Latest` returns a block and
`AddBlock` does not go out of bounds. -/
theorem reachable_nonempty (now : Time) (calls : List Call) :
    ∃ c, (NewChain now).run calls = some c
      ∧ c.blocks ≠ []
      ∧ 1 ≤ c.Blocks.length
      ∧ (∃ tip, c.Latest = some tip)
      ∧ ∀ (now' : Time) (data : String), ∃ r, c.AddBlock now' data = some r := by
  obtain ⟨c, hrun, hne⟩ := run_preserves (fun c => c.blocks ≠ []) (fun _ => True)
    (fun _ h => h) (fun _ _ _ _ _ _ => by simp) (fun c newBlocks _ _ hlen _ => by
      intro h0
      simp only at h0
      rw [h0] at hlen
      simp at hlen)
    calls (fun _ _ => trivial) (NewChain now) (by simp [NewChain])
  obtain ⟨tip, htip⟩ := exists_getLast?_of_ne_nil c.blocks hne
  refine ⟨c, hrun, hne, ?_, ⟨tip, ?_⟩, fun now' data => ⟨_, AddBlock_of_getLast? c tip htip now' data⟩⟩
  · cases hc : c.blocks with
    | nil => exact absurd hc hne
    | cons a rest => simp [Chain.Blocks, hc]
  · rw [Latest_eq_getLast?]
    exact htip

/-- C10, as amended. For every ledger reached from `NewChain` by AddBlock and
Replace calls in which every Replace candidate that passes `validateChain`
starts with a record of sequence number 0 and previous digest "0", the first
record has sequence number 0 and previous digest "0", and every record's
sequence number equals its zero-based position (for every position a Go `int`
can hold). -/
theorem reachable_positions (now : Time) (calls : List Call)
    (hcand : ∀ newBlocks first, Call.Replace newBlocks ∈ calls →
      validateChain newBlocks = none → newBlocks.head? = some first →
      first.Index = 0 ∧ first.PreviousHash = "0") :
    ∃ c, (NewChain now).run calls = some c
      ∧ (∃ first, c.Blocks.head? = some first ∧ first.Index = 0 ∧ first.PreviousHash = "0")
      ∧ ∀ (i : Nat) (h : i < c.Blocks.length), i < 2 ^ 63 → (c.Blocks[i]).Index = i := by
  obtain ⟨c, hrun, hv, first, hfirst, h0, hp⟩ := run_preserves
    (fun c => validateChain c.blocks = none
      ∧ ∃ first, c.blocks.head? = some first ∧ first.Index = 0 ∧ first.PreviousHash = "0")
    (fun call => ∀ newBlocks first, call = Call.Replace newBlocks →
      validateChain newBlocks = none → newBlocks.head? = some first →
      first.Index = 0 ∧ first.PreviousHash = "0")
    (fun c h => ((validateChain_eq_none_iff _).1 h.1).1)
    (fun c tip now' data h ht => ⟨validateChain_concat _ tip now' data h.1 ht, by
      have hne := ((validateChain_eq_none_iff _).1 h.1).1
      simp only [head?_concat_of_ne_nil _ _ hne]
      exact h.2⟩)
    (fun c newBlocks _ hQ hlen hv => ⟨hv, by
      cases hnb : newBlocks with
      | nil => simp [hnb] at hlen
      | cons a rest =>
        exact ⟨a, rfl, hQ newBlocks a rfl hv (by rw [hnb]; rfl)⟩⟩)
    calls (fun call hmem newBlocks first hcall => by
      subst hcall
      exact hcand newBlocks first hmem)
    (NewChain now) ⟨rfl, _, rfl, rfl, rfl⟩
  refine ⟨c, hrun, ⟨first, hfirst, h0, hp⟩, ?_⟩
  intro i h hi
  have hidx := index_of_linked c.blocks ((validateChain_eq_none_iff _).1 hv).2
    (by intro f hf; rw [hfirst] at hf; cases hf; exact h0) i h
  simp only [Chain.Blocks]
  rw [hidx]
  exact int_of_range _ (by omega) (by omega)

theorem reachable_positions_witness :
    (∀ newBlocks first,
        Call.Replace newBlocks ∈ [Call.AddBlock t1 "trunk-1", Call.Replace [genesis0, block1, block2]] →
        validateChain newBlocks = none → newBlocks.head? = some first →
        first.Index = 0 ∧ first.PreviousHash = "0")
      ∧ ∃ c, (NewChain t0).run
            [Call.AddBlock t1 "trunk-1", Call.Replace [genesis0, block1, block2]] = some c
          ∧ ∃ first, c.Blocks.head? = some first ∧ first.Index = 0
              ∧ first.PreviousHash = "0" :=
  have hcand : ∀ newBlocks first,
      Call.Replace newBlocks ∈ [Call.AddBlock t1 "trunk-1", Call.Replace [genesis0, block1, block2]] →
      validateChain newBlocks = none → newBlocks.head? = some first →
      first.Index = 0 ∧ first.PreviousHash = "0" := by
    intro newBlocks first hmem _ hf
    simp only [List.mem_cons, List.mem_singleton, Call.Replace.injEq, List.not_mem_nil,
      or_false, false_or, reduceCtorEq] at hmem
    subst hmem
    simp only [List.head?_cons, Option.some.injEq] at hf
    subst hf
    exact ⟨rfl, rfl⟩
  ⟨hcand, (reachable_positions t0 _ hcand).imp fun _ h => ⟨h.1, h.2.1⟩⟩

/-- C10, as stated, fails. One Replace call on the ledger `NewChain t0` with the
candidate `[forged0, forged1]`, which is longer than the ledger and passes
`validateChain` because its first record is checked against nothing, leaves a
ledger whose first record has sequence number 5, not its position 0, and a
previous digest that is not "0". -/
theorem reachable_forged_genesis :
    (NewChain t0).run [Call.Replace [forged0, forged1]] = some { blocks := [forged0, forged1] }
      ∧ validateChain [forged0, forged1] = none
      ∧ ([forged0, forged1][0]).Index = 5
      ∧ ([forged0, forged1][0]).Index ≠ 0
      ∧ ([forged0, forged1][0]).PreviousHash ≠ "0"
      ∧ ([forged0, forged1][1]).Index ≠ 1 := by
  decide!

/-- C11, as amended. Single-record validation rule: `validateBlock c p`
succeeds if and only if `c.Index` is `p.Index + 1` in the 64-bit wrapping
arithmetic of a Go `int` (the integer successor whenever that fits 64 bits,
and `-2^63` when `p.Index` is `2^63 - 1`), `c.PreviousHash = p.Hash` and
`calculateHash c = c.Hash`; when it fails, the error is that of the first
failing check in this order: "invalid index: got ... expected ...", then
"previous hash mismatch", then "hash mismatch". -/
theorem validateBlock_rule (c p : Block) :
    (validateBlock c p = none ↔
        c.Index = int (p.Index + 1) ∧ c.PreviousHash = p.Hash ∧ calculateHash c = c.Hash)
      ∧ (c.Index ≠ int (p.Index + 1) →
          validateBlock c p = some ("invalid index: got " ++ fmt.decimal c.Index
            ++ " expected " ++ fmt.decimal (int (p.Index + 1))))
      ∧ (c.Index = int (p.Index + 1) → c.PreviousHash ≠ p.Hash →
          validateBlock c p = some "previous hash mismatch")
      ∧ (c.Index = int (p.Index + 1) → c.PreviousHash = p.Hash → calculateHash c ≠ c.Hash →
          validateBlock c p = some "hash mismatch")
      ∧ (-2 ^ 63 ≤ p.Index + 1 → p.Index + 1 < 2 ^ 63 → int (p.Index + 1) = p.Index + 1)
      ∧ (p.Index = 2 ^ 63 - 1 → int (p.Index + 1) = -2 ^ 63) := by
  refine ⟨?_, ?_, ?_, ?_, fun h1 h2 => int_of_range _ h1 h2, fun h1 => int_succ_max _ h1⟩
  · rw [validateBlock_eq_none_iff]
    constructor
    · rintro ⟨h1, h2, h3⟩
      exact ⟨h1.symm, h2.symm, h3⟩
    · rintro ⟨h1, h2, h3⟩
      exact ⟨h1.symm, h2.symm, h3⟩
  · intro h1
    have h1' : ¬ int (p.Index + 1) = c.Index := fun h => h1 h.symm
    simp [validateBlock, h1']
  · intro h1 h2
    have h2' : ¬ p.Hash = c.PreviousHash := fun h => h2 h.symm
    simp [validateBlock, h1, h2']
  · intro h1 h2 h3
    simp [validateBlock, h1, h2, h3]

theorem validateBlock_rule_witness :
    validateBlock forged0 genesis0 = some "invalid index: got 5 expected 1"
      ∧ validateBlock { block1 with PreviousHash := "tampered" } genesis0
          = some "previous hash mismatch"
      ∧ validateBlock { block1 with Data := "changed" } genesis0 = some "hash mismatch"
      ∧ validateBlock block1 genesis0 = none :=
  ⟨(validateBlock_rule forged0 genesis0).2.1 (by decide),
   (validateBlock_rule { block1 with PreviousHash := "tampered" } genesis0).2.2.1
      (by decide) (by decide),
   (validateBlock_rule { block1 with Data := "changed" } genesis0).2.2.2.1
      (by decide) (by decide) (by decide!),
   (validateBlock_rule block1 genesis0).1.2 ⟨by decide, by decide, by decide!⟩⟩

/-- C11, as stated, fails at the largest `int`. The predecessor `maxBlock` has
sequence number `2^63 - 1` and the candidate `minBlock` has `-2^63`, which is
not that number plus one; the other two checks hold, and `validateBlock`
returns no error where the claim predicts the "invalid index" error. -/
theorem validateBlock_wraps :
    minBlock.Index ≠ maxBlock.Index + 1
      ∧ minBlock.PreviousHash = maxBlock.Hash
      ∧ calculateHash minBlock = minBlock.Hash
      ∧ validateBlock minBlock maxBlock = none
      ∧ validateBlock minBlock maxBlock
          ≠ some ("invalid index: got " ++ fmt.decimal minBlock.Index ++ " expected "
              ++ fmt.decimal (maxBlock.Index + 1)) := by
  decide!

/-- C12. Whole-sequence validation rule: `validateChain s` fails with
"chain is empty" when `s` has zero length, and for a non-empty `s` it succeeds
if and only if `validateBlock s[i] s[i-1]` succeeds for every `i` with
`1 ≤ i ≤ len(s) - 1`. -/
theorem validateChain_rule (s : List Block) :
    (s.length = 0 → validateChain s = some "chain is empty")
      ∧ (s.length ≠ 0 →
          (validateChain s = none ↔
            ∀ (i : Nat) (_ : 1 ≤ i) (h2 : i < s.length),
              validateBlock (s[i]) (s[i - 1]) = none)) := by
  constructor
  · intro h0
    rw [List.length_eq_zero] at h0
    rw [h0]
    rfl
  · intro hlen
    have hne : s ≠ [] := fun h => hlen (by rw [h]; rfl)
    rw [validateChain_eq_none_iff_getElem s hne]
    constructor
    · intro h i h1 h2
      obtain ⟨j, rfl⟩ : ∃ j, i = j + 1 := ⟨i - 1, by omega⟩
      exact h j h2
    · intro h i hi
      exact h (i + 1) (by omega) hi

theorem validateChain_rule_witness :
    validateChain [] = some "chain is empty"
      ∧ (validateChain [genesis0, block1, block2] = none ↔
          ∀ (i : Nat) (_ : 1 ≤ i) (h2 : i < [genesis0, block1, block2].length),
            validateBlock ([genesis0, block1, block2][i]) ([genesis0, block1, block2][i - 1])
              = none) :=
  ⟨(validateChain_rule []).1 rfl, (validateChain_rule [genesis0, block1, block2]).2 (by decide)⟩

/-- C13. Length alone, not history, decides adoption: on two ledgers whose
sequences have the same length Replace returns the same boolean for every
candidate, and when it returns true both ledgers end up holding the candidate;
a candidate that shares no record with the ledger, not even its first one, can
be adopted. -/
theorem Replace_length_only (c₁ c₂ : Chain) (newBlocks : List Block)
    (h : c₁.blocks.length = c₂.blocks.length) :
    (c₁.Replace newBlocks).2 = (c₂.Replace newBlocks).2
      ∧ ((c₁.Replace newBlocks).2 = true →
          (c₁.Replace newBlocks).1 = (c₂.Replace newBlocks).1
            ∧ (c₁.Replace newBlocks).1.Blocks = newBlocks)
      ∧ ∃ (c : Chain) (cand : List Block),
          (∀ b, b ∈ cand → b ∉ c.blocks) ∧ (c.Replace cand).2 = true := by
  have hb : (c₁.Replace newBlocks).2 = (c₂.Replace newBlocks).2 := by
    unfold Chain.Replace
    rw [h]
    by_cases hlen : newBlocks.length ≤ c₂.blocks.length
    · simp [hlen]
    · cases hv : validateChain newBlocks <;> simp [hlen]
  refine ⟨hb, ?_, NewChain t0, [forged0, forged1], by decide!, by decide!⟩
  intro ht
  rw [Replace_eq_of_true c₁ newBlocks ht, Replace_eq_of_true c₂ newBlocks (hb ▸ ht)]
  exact ⟨rfl, rfl⟩

theorem Replace_length_only_witness :
    (NewChain t0).blocks.length = (Chain.mk [forged0]).blocks.length
      ∧ ((NewChain t0).Replace [genesis0, block1]).2 = true
      ∧ ((NewChain t0).Replace [genesis0, block1]).1
          = ((Chain.mk [forged0]).Replace [genesis0, block1]).1 :=
  have h := Replace_length_only (NewChain t0) (Chain.mk [forged0]) [genesis0, block1] (by decide!)
  ⟨by decide!, by decide!, (h.2.1 (by decide!)).1⟩

/-- C14. A validly extended sequence is adopted: for a sequence `s` that
passes `validateChain` (so it is non-empty) and a non-empty list of payloads,
each with its clock reading, such that `len(s)` plus the number of payloads
exceeds the ledger's length, the sequence `extendWithData` builds (one
`generateBlock` per payload after `s`) passes `validateChain`, Replace on it
returns true, and afterwards the ledger has `len(s)` plus the number of
payloads records and its tip carries the last payload. -/
theorem Replace_extended (c : Chain) (s : List Block) (ps : List (Time × String))
    (hs : validateChain s = none) (hk : ps ≠ [])
    (hlen : c.blocks.length < s.length + ps.length) :
    ∃ s', extendWithData s ps = some s'
      ∧ validateChain s' = none
      ∧ (c.Replace s').2 = true
      ∧ (c.Replace s').1.Blocks = s'
      ∧ (c.Replace s').1.Blocks.length = s.length + ps.length
      ∧ ∃ tip, (c.Replace s').1.Latest = some tip ∧ tip.Data = (ps.getLast hk).2 := by
  have hne : s ≠ [] := ((validateChain_eq_none_iff s).1 hs).1
  obtain ⟨last, hlast⟩ := exists_getLast?_of_ne_nil s hne
  have hv := validateChain_extend s last ps hs hlast
  have hl : (s ++ extendWithData.loop last ps).length = s.length + ps.length := by
    rw [List.length_append, extendLoop_length]
  have hrep : c.Replace (s ++ extendWithData.loop last ps)
      = ({ blocks := s ++ extendWithData.loop last ps }, true) := by
    unfold Chain.Replace
    rw [hl, hv]
    simp [Nat.not_le.2 hlen]
  obtain ⟨tip, htip, hdata⟩ := extendLoop_getLast last ps hk
  refine ⟨_, extendWithData_of_getLast? s last ps hlast, hv, ?_, ?_, ?_, tip, ?_, hdata⟩
  · rw [hrep]
  · rw [hrep]
    rfl
  · rw [hrep]
    exact hl
  · rw [hrep, Latest_eq_getLast?]
    simp only [List.getLast?_append, htip, Option.or_some]

theorem Replace_extended_witness :
    validateChain [genesis0] = none
      ∧ ∃ s', extendWithData [genesis0] [(t1, "branch-1"), (t2, "branch-2")] = some s'
          ∧ validateChain s' = none
          ∧ ((Chain.mk [genesis0, block1]).Replace s').2 = true
          ∧ ((Chain.mk [genesis0, block1]).Replace s').1.Blocks.length = 1 + 2 :=
  ⟨by decide!,
   (Replace_extended (Chain.mk [genesis0, block1]) [genesis0]
      [(t1, "branch-1"), (t2, "branch-2")] (by decide!) (by decide) (by decide)).imp
    fun _ h => ⟨h.1, h.2.1, h.2.2.1, h.2.2.2.2.1⟩⟩

/-- C15. Digest determinism: `calculateHash` is a function of the record's
sequence number, timestamp text, payload and previous digest only. Two records
that agree on these four have the same digest, whatever their `Hash` fields
hold; in particular overwriting `Hash`, or presenting the same instant in
another zone, does not change the digest, and the digest of one record is one
value. -/
theorem calculateHash_deterministic (a b : Block) (hi : a.Index = b.Index)
    (ht : a.Timestamp.UTC.FormatRFC3339Nano = b.Timestamp.UTC.FormatRFC3339Nano)
    (hd : a.Data = b.Data) (hp : a.PreviousHash = b.PreviousHash) :
    calculateHash a = calculateHash b
      ∧ (∀ h : String, calculateHash { a with Hash := h } = calculateHash b)
      ∧ (∀ offset : Int,
          calculateHash { a with Timestamp := { a.Timestamp with offset := offset } }
            = calculateHash b)
      ∧ calculateHash a = calculateHash a :=
  ⟨calculateHash_congr a b hi ht hd hp,
   fun _ => calculateHash_congr _ b hi ht hd hp,
   fun _ => calculateHash_congr _ b hi ht hd hp,
   rfl⟩

theorem calculateHash_deterministic_witness :
    block1.Hash ≠ "another digest"
      ∧ calculateHash block1
          = calculateHash { block1 with Hash := "another digest", Timestamp := { t1 with offset := 7200 } } :=
  ⟨by decide,
   (calculateHash_deterministic block1
      { block1 with Hash := "another digest", Timestamp := { t1 with offset := 7200 } }
      rfl rfl rfl rfl).1⟩

/-- C17. Whole-sequence validation short-circuits: when `validateChain` fails
on a non-empty sequence `s`, its error is the error of `validateBlock s[i]
s[i-1]` at the smallest `i ≥ 1` at which that pair fails (every pair before it
passes), whatever later pairs do. -/
theorem validateChain_first_error (s : List Block) (e : String) (hne : s ≠ [])
    (h : validateChain s = some e) :
    ∃ (i : Nat) (_ : 1 ≤ i) (h2 : i < s.length),
      validateBlock (s[i]) (s[i - 1]) = some e
        ∧ ∀ (j : Nat) (_ : 1 ≤ j) (hj : j < i), validateBlock (s[j]) (s[j - 1]) = none := by
  cases s with
  | nil => exact absurd rfl hne
  | cons first rest =>
    obtain ⟨i, hi, he, hprev⟩ := loop_first_error first rest e h
    refine ⟨i + 1, by omega, hi, he, ?_⟩
    intro j h1 hj
    obtain ⟨k, rfl⟩ : ∃ k, j = k + 1 := ⟨j - 1, by omega⟩
    exact hprev k (by omega)

theorem validateChain_first_error_witness :
    [genesis0, { block1 with PreviousHash := "tampered" }, forged0] ≠ []
      ∧ validateBlock forged0 { block1 with PreviousHash := "tampered" }
          = some "invalid index: got 5 expected 2"
      ∧ ∃ (i : Nat) (_ : 1 ≤ i)
          (h2 : i < [genesis0, { block1 with PreviousHash := "tampered" }, forged0].length),
          validateBlock ([genesis0, { block1 with PreviousHash := "tampered" }, forged0][i])
              ([genesis0, { block1 with PreviousHash := "tampered" }, forged0][i - 1])
            = some "previous hash mismatch" :=
  ⟨by decide, by decide,
   (validateChain_first_error [genesis0, { block1 with PreviousHash := "tampered" }, forged0]
      "previous hash mismatch" (by decide) (by decide)).imp
    fun _ h => h.imp fun _ h => h.imp fun _ h => h.1⟩

/-- C18. The first record is not checked against anything: every one-record
sequence passes `validateChain`, and the result of `validateChain s` on a
non-empty `s` does not change when `s[0]` is replaced by any record with the
same sequence number and the same `Hash` field, whatever its payload,
timestamp and previous digest, and whether or not its `Hash` is the hash of its
fields. -/
theorem validateChain_first_unchecked (s : List Block) (r : Block) (h : 0 < s.length)
    (hi : r.Index = (s[0]).Index) (hh : r.Hash = (s[0]).Hash) :
    validateChain (s.set 0 r) = validateChain s ∧ validateChain [r] = none := by
  refine ⟨?_, rfl⟩
  cases s with
  | nil => simp at h
  | cons first rest =>
    simp only [List.getElem_cons_zero] at hi hh
    simp only [List.set_cons_zero, validateChain]
    cases rest with
    | nil => rfl
    | cons b rest' =>
      simp only [validateChain.loop, validateBlock_congr_old b first r hi hh]

theorem validateChain_first_unchecked_witness :
    forged0.Data ≠ genesis0.Data ∧ calculateHash { forged0 with Index := 0, Hash := genesis0.Hash }
        ≠ genesis0.Hash
      ∧ validateChain ([genesis0, block1].set 0 { forged0 with Index := 0, Hash := genesis0.Hash })
          = validateChain [genesis0, block1]
      ∧ validateChain [{ forged0 with Index := 0, Hash := genesis0.Hash }] = none :=
  ⟨by decide, by decide!,
   validateChain_first_unchecked [genesis0, block1]
      { forged0 with Index := 0, Hash := genesis0.Hash } (by decide) rfl rfl⟩

/-- C19. Changing any one field changes what is hashed: the text
`calculateHash` feeds to SHA-256 is the decimal sequence number, the timestamp
text, the payload and the previous digest, concatenated with no separators, and
for two records that differ in exactly one of these four and agree on the
other three that text is different, and so are its UTF-8 bytes; so if their
digests are equal, SHA-256 gives one checksum to two different byte strings. -/
theorem hashRecord_one_field_changes (a b : Block)
    (h : (a.Index ≠ b.Index ∧ timestampText a = timestampText b ∧ a.Data = b.Data
          ∧ a.PreviousHash = b.PreviousHash)
      ∨ (a.Index = b.Index ∧ timestampText a ≠ timestampText b ∧ a.Data = b.Data
          ∧ a.PreviousHash = b.PreviousHash)
      ∨ (a.Index = b.Index ∧ timestampText a = timestampText b ∧ a.Data ≠ b.Data
          ∧ a.PreviousHash = b.PreviousHash)
      ∨ (a.Index = b.Index ∧ timestampText a = timestampText b ∧ a.Data = b.Data
          ∧ a.PreviousHash ≠ b.PreviousHash)) :
    hashRecord a ≠ hashRecord b
      ∧ hashRecord a
          = fmt.decimal a.Index ++ timestampText a ++ a.Data ++ a.PreviousHash
      ∧ calculateHash a = hex.EncodeToString (sha256.Sum256 (bytes (hashRecord a)))
      ∧ bytes (hashRecord a) ≠ bytes (hashRecord b)
      ∧ (calculateHash a = calculateHash b →
          sha256.Sum256 (bytes (hashRecord a)) = sha256.Sum256 (bytes (hashRecord b))) := by
  have hne : hashRecord a ≠ hashRecord b := by
    intro heq
    rw [hashRecord_eq, hashRecord_eq] at heq
    rcases h with ⟨hi, ht, hd, hp⟩ | ⟨hi, ht, hd, hp⟩ | ⟨hi, ht, hd, hp⟩ | ⟨hi, ht, hd, hp⟩
    · rw [ht, hd, hp] at heq
      have h1 := string_append_right_cancel _ _ _ heq
      have h2 := string_append_right_cancel _ _ _ h1
      have h3 := string_append_right_cancel _ _ _ h2
      exact hi (decimal_injective _ _ h3)
    · rw [hi, hd, hp] at heq
      have h1 := string_append_right_cancel _ _ _ heq
      have h2 := string_append_right_cancel _ _ _ h1
      exact ht (string_append_left_cancel _ _ _ h2)
    · rw [hi, ht, hp] at heq
      have h1 := string_append_right_cancel _ _ _ heq
      exact hd (string_append_left_cancel _ _ _ h1)
    · rw [hi, ht, hd] at heq
      exact hp (string_append_left_cancel _ _ _ heq)
  exact ⟨hne, rfl, rfl, fun hb => hne (bytes_injective _ _ hb),
    Sum256_eq_of_calculateHash_eq a b⟩

theorem hashRecord_one_field_changes_witness :
    (block1.Index = ({ block1 with Data := "changed" } : Block).Index
        ∧ timestampText block1 = timestampText { block1 with Data := "changed" }
        ∧ block1.Data ≠ ({ block1 with Data := "changed" } : Block).Data
        ∧ block1.PreviousHash = ({ block1 with Data := "changed" } : Block).PreviousHash)
      ∧ hashRecord block1 ≠ hashRecord { block1 with Data := "changed" } :=
  ⟨⟨rfl, rfl, by decide, rfl⟩,
   (hashRecord_one_field_changes block1 { block1 with Data := "changed" }
      (Or.inr (Or.inr (Or.inl ⟨rfl, rfl, by decide, rfl⟩)))).1⟩

/-- C20, as amended. Validity is preserved by every operation: every sequence
of AddBlock and Replace calls on the ledger of `NewChain` ends in a ledger
whose sequence passes `validateChain`: for every `i ≥ 1` record `i` has the
sequence number of record `i - 1` plus one in the 64-bit wrapping arithmetic
of a Go `int` (the integer successor whenever that fits 64 bits, and `-2^63`
after `2^63 - 1`), its `PreviousHash` is the `Hash` of record `i - 1`, and its
`Hash` is `calculateHash` of the record itself. -/
theorem reachable_valid (now : Time) (calls : List Call) :
    ∃ c, (NewChain now).run calls = some c
      ∧ validateChain c.Blocks = none
      ∧ ∀ (i : Nat) (_ : 1 ≤ i) (h2 : i < c.Blocks.length),
          (c.Blocks[i]).Index = int ((c.Blocks[i - 1]).Index + 1)
            ∧ (-2 ^ 63 ≤ (c.Blocks[i - 1]).Index + 1 → (c.Blocks[i - 1]).Index + 1 < 2 ^ 63 →
                (c.Blocks[i]).Index = (c.Blocks[i - 1]).Index + 1)
            ∧ ((c.Blocks[i - 1]).Index = 2 ^ 63 - 1 → (c.Blocks[i]).Index = -2 ^ 63)
            ∧ (c.Blocks[i]).PreviousHash = (c.Blocks[i - 1]).Hash
            ∧ (c.Blocks[i]).Hash = calculateHash (c.Blocks[i]) := by
  obtain ⟨c, hrun, hv⟩ := run_preserves (fun c => validateChain c.blocks = none)
    (fun _ => True)
    (fun c h => ((validateChain_eq_none_iff _).1 h).1)
    (fun c tip now' data h ht => validateChain_concat _ tip now' data h ht)
    (fun c newBlocks _ _ _ hv => hv)
    calls (fun _ _ => trivial) (NewChain now) rfl
  refine ⟨c, hrun, hv, ?_⟩
  intro i h1 h2
  obtain ⟨j, rfl⟩ : ∃ j, i = j + 1 := ⟨i - 1, by omega⟩
  have hne : c.blocks ≠ [] := ((validateChain_eq_none_iff _).1 hv).1
  have hl := (validateChain_eq_none_iff_getElem c.blocks hne).1 hv j h2
  obtain ⟨ha, hb, hc⟩ := (validateBlock_eq_none_iff _ _).1 hl
  refine ⟨ha.symm, ?_, ?_, hb.symm, hc.symm⟩
  · intro hlo hhi
    exact ha.symm.trans (int_of_range _ hlo hhi)
  · intro hmax
    exact ha.symm.trans (int_succ_max _ hmax)

theorem reachable_valid_witness :
    ∃ c, (NewChain t0).run
          [Call.AddBlock t1 "trunk-1", Call.Replace [genesis0, block1, block2],
            Call.Replace [forged0, forged1], Call.AddBlock t2 "next"] = some c
      ∧ validateChain c.Blocks = none :=
  (reachable_valid t0 [Call.AddBlock t1 "trunk-1", Call.Replace [genesis0, block1, block2],
    Call.Replace [forged0, forged1], Call.AddBlock t2 "next"]).imp fun _ h => ⟨h.1, h.2.1⟩

/-- C20, as stated, fails. One Replace call on the ledger `NewChain t0` with the
candidate `[maxBlock, minBlock]`, which is longer than the ledger and passes
`validateChain`, leaves a ledger whose records have sequence numbers `2^63 - 1`
and `-2^63`: record 1 does not have one more than record 0. -/
theorem reachable_wrapped :
    (NewChain t0).run [Call.Replace [maxBlock, minBlock]]
        = some { blocks := [maxBlock, minBlock] }
      ∧ validateChain [maxBlock, minBlock] = none
      ∧ ([maxBlock, minBlock][0]).Index = 2 ^ 63 - 1
      ∧ ([maxBlock, minBlock][1]).Index = -2 ^ 63
      ∧ ([maxBlock, minBlock][1]).Index ≠ ([maxBlock, minBlock][0]).Index + 1 := by
  decide!

end blockchain
